import Mathlib

/-!
# Verification of the `rust-constraint` CSP engine

Shallow embedding of the repository's Rust sources (`src/variable.rs`,
`src/domain.rs`, `src/constraint.rs`) together with theorems settling the
frozen claims about the natural-language specification.

Modelling conventions:
* Rust `i32` values are modelled as `Int` (the claims under scrutiny do not
  hinge on 32-bit overflow; all concrete inputs are tiny).
* `HashMap<&Variable, i32>` (assignments) and `HashMap<&Variable, &mut Domain>`
  (domains) are modelled as association lists with first-match lookup; the
  code only ever accesses them by key except where noted.
* A Rust panic (`Vec::remove` out of bounds, `Option::unwrap` on `None`,
  indexing a missing key) is modelled by `Option`: `none` is "the code
  panics".  Functions whose every execution path is panic-free are total.
* `Vec` is a `List`; `Vec::push` appends at the end, `Vec::pop` removes the
  last element.
-/

namespace RustConstraint

/-! ## `src/variable.rs` -/

/-- `Variable` from `variable.rs`: an identity token holding only a name.
`PartialEq`/`Hash` are by name, which is exactly structural equality here. -/
structure Variable where
  name : String
deriving DecidableEq, Repr

/-- `Variable::new(name)` (variable.rs lines 28-32). -/
def Variable.new (name : String) : Variable := ⟨name⟩

/-- `Variable::unassigned()` (variable.rs lines 34-38): the static sentinel,
a variable whose name is the literal string `"UNASSIGNED"`. -/
def Variable.unassigned : Variable := ⟨"UNASSIGNED"⟩

/-! ## Association-list maps (model of the two `HashMap`s) -/

/-- `ConstraintError` from `constraint.rs` lines 10-21. -/
structure ConstraintError where
  msg : String
deriving DecidableEq, Repr

/-- `ConstraintError::new` (constraint.rs lines 15-21). -/
def ConstraintError.new (msg : String) : ConstraintError := ⟨msg⟩

/-- The assignment mapping `HashMap<&Variable, i32>`. -/
abbrev Assignments := List (Variable × Int)

/-- `assignments.get(v)` / `assignments[v]`: first-match lookup. -/
def lookupA : Assignments → Variable → Option Int
  | [], _ => none
  | (w, x) :: rest, v => if w = v then some x else lookupA rest v

/-- `assignments.contains_key(v)`. -/
def containsA (a : Assignments) (v : Variable) : Bool :=
  (lookupA a v).isSome

/-- `assignments.insert(v, x)`: replaces the existing entry for `v`,
otherwise adds one. -/
def insertA : Assignments → Variable → Int → Assignments
  | [], v, x => [(v, x)]
  | (w, y) :: rest, v, x =>
      if w = v then (v, x) :: rest else (w, y) :: insertA rest v x

/-- `assignments.remove(&v)`: drops the entry for `v` (if any). -/
def removeA : Assignments → Variable → Assignments
  | [], _ => []
  | (w, y) :: rest, v => if w = v then rest else (w, y) :: removeA rest v

/-! ## `src/domain.rs` -/

/-- `Domain` (domain.rs lines 1-6): live values, hidden values and the
checkpoint stack of recorded live-value counts. -/
structure Domain where
  values : List Int
  hidden : List Int
  states : List Nat
deriving DecidableEq, Repr

/-- `Domain::new(set)` (domain.rs lines 9-15). -/
def Domain.new (set : List Int) : Domain :=
  { values := set, hidden := [], states := [] }

/-- `Domain::reset_state` (domain.rs lines 17-21). -/
def Domain.reset_state (d : Domain) : Domain :=
  { values := d.values ++ d.hidden, hidden := [], states := [] }

/-- `Domain::push_state` (domain.rs lines 23-25): `Vec::push` appends the
current live-value count at the end of `states`. -/
def Domain.push_state (d : Domain) : Domain :=
  { d with states := d.states ++ [d.values.length] }

/-- `Domain::hide_value(value)` (domain.rs lines 41-44):
`values.remove(values.iter().position(|x| *x == value).unwrap())` followed by
`hidden.push(value)`.  Removing the first occurrence is `List.erase`; the
`unwrap` panics (`none`) when `value` is not live. -/
def Domain.hide_value (d : Domain) (value : Int) : Option Domain :=
  if d.values.contains value then
    some { d with values := d.values.erase value, hidden := d.hidden ++ [value] }
  else
    none

/-- The loop `for i in bound..hidden.len() { self.hidden.remove(i); }`
(domain.rs lines 34-36), and the identical remove-by-collected-indices loops
of the `pre_process` implementations (e.g. constraint.rs lines 711-713):
`Vec::remove(i)` shifts later elements down and panics (`none`) when `i` is
out of bounds.  The index list is fixed before any removal happens. -/
def removeIndicesLoop {α : Type} : List α → List Nat → Option (List α)
  | xs, [] => some xs
  | xs, i :: is =>
      if i < xs.length then removeIndicesLoop (xs.eraseIdx i) is else none

/-- `Domain::pop_state` (domain.rs lines 27-39).  `states.pop()` takes the
last checkpoint; `diff` is the number of values hidden since then;
`values.extend(hidden[bound..])` restores them; the final loop then tries to
delete `hidden[bound..]` by index, over the range `bound..hidden.len()`
computed once, while the vector shrinks. -/
def Domain.pop_state (d : Domain) : Option Domain :=
  match d.states.getLast? with
  | none => some d
  | some size =>
      let states' := d.states.dropLast
      let diff := size - d.values.length
      if diff > 0 then
        let bound := d.hidden.length - diff
        let values' := d.values ++ d.hidden.drop bound
        match removeIndicesLoop d.hidden (List.range' bound (d.hidden.length - bound)) with
        | some hidden' => some { values := values', hidden := hidden', states := states' }
        | none => none
      else
        some { d with states := states' }

/-- Sequence of `hide_value` calls, `none` as soon as one panics. -/
def hideValues : Domain → List Int → Option Domain
  | d, [] => some d
  | d, x :: xs =>
      match d.hide_value x with
      | some d' => hideValues d' xs
      | none => none

/-! ## The domains map -/

/-- The domains map `HashMap<&Variable, &mut Domain>`. -/
abbrev Domains := List (Variable × Domain)

/-- `domains.get(v)` / `domains.get_mut(v)`: first-match lookup. -/
def lookupD : Domains → Variable → Option Domain
  | [], _ => none
  | (w, d) :: rest, v => if w = v then some d else lookupD rest v

/-- Writing back through a `get_mut` borrow: replace the (first) entry of `v`.
The code only updates keys it has just looked up, so no entry is ever added. -/
def updateD : Domains → Variable → Domain → Domains
  | [], _, _ => []
  | (w, d) :: rest, v, d' =>
      if w = v then (v, d') :: rest else (w, d) :: updateD rest v d'

/-! ## `InSetConstraint` / `NotInSetConstraint` (constraint.rs lines 671-785)

The `HashSet<i32>` configuration parameter is modelled as a `List Int`; the
code only ever queries it through `contains`. -/

/-- `InSetConstraint::call` (constraint.rs lines 685-692): unconditionally
`Err(ConstraintError::new("Can't happen because of preprocess."))`, the
`&mut` domains untouched. -/
def InSetConstraint.call (_set : List Int) (_vars : List Variable)
    (domains : Domains) (_assignments : Assignments) (_forward_check : Bool) :
    Option (Domains × Except ConstraintError Bool) :=
  some (domains, .error (ConstraintError.new "Can't happen because of preprocess."))

/-- `NotInSetConstraint::call` (constraint.rs lines 743-750): identical to
`InSetConstraint::call`. -/
def NotInSetConstraint.call (_set : List Int) (_vars : List Variable)
    (domains : Domains) (_assignments : Assignments) (_forward_check : Bool) :
    Option (Domains × Except ConstraintError Bool) :=
  some (domains, .error (ConstraintError.new "Can't happen because of preprocess."))

/-- The domain-filtering step of `InSetConstraint::pre_process`
(constraint.rs lines 702-714) applied to one variable's domain: collect, in
iteration order, the index (`position` of the first equal value) of every
value not in the set, then remove the collected indices one by one with
`Vec::remove`. -/
def InSetConstraint.preProcessDomain (set : List Int) (d : Domain) : Option Domain :=
  let to_removes :=
    (d.values.filter (fun v => !set.contains v)).map (fun value => d.values.indexOf value)
  match removeIndicesLoop d.values to_removes with
  | some values' => some { d with values := values' }
  | none => none

/-- The domain-filtering step of `NotInSetConstraint::pre_process`
(constraint.rs lines 760-773): same removal loop, keeping values *not* in the
set. -/
def NotInSetConstraint.preProcessDomain (set : List Int) (d : Domain) : Option Domain :=
  let to_removes :=
    (d.values.filter (fun v => set.contains v)).map (fun value => d.values.indexOf value)
  match removeIndicesLoop d.values to_removes with
  | some values' => some { d with values := values' }
  | none => none

/-! ## The bounded-sum family: shared sum helpers -/

/-- The accumulation `if contains_key(v) { sum += assignments[v] * m }` over a
zipped `(variable, multiplier)` list (the indexing is guarded, so it cannot
panic). -/
def weightedSum (asgn : Assignments) : List (Variable × Int) → Int
  | [] => 0
  | (v, m) :: rest =>
      match lookupA asgn v with
      | some x => x * m + weightedSum asgn rest
      | none => weightedSum asgn rest

/-- The accumulation `if contains_key(v) { sum += assignments[v] }` over the
plain variable list (the no-multipliers branches). -/
def plainSum (asgn : Assignments) : List Variable → Int
  | [] => 0
  | v :: rest =>
      match lookupA asgn v with
      | some x => x + plainSum asgn rest
      | none => plainSum asgn rest

/-- `missing` as computed by `ExactSumConstraint::call`'s multiplier branch:
some zipped variable is unassigned. -/
def missingPairs (asgn : Assignments) (pairs : List (Variable × Int)) : Bool :=
  pairs.any (fun p => !containsA asgn p.1)

/-- `missing` over a plain variable list. -/
def missingVars (asgn : Assignments) (vs : List Variable) : Bool :=
  vs.any (fun v => !containsA asgn v)

/-- The weighted/plain sum a sum-family constraint is configured for. -/
def sumCfg (asgn : Assignments) (multipliers : Option (List Int))
    (vs : List Variable) : Int :=
  match multipliers with
  | some ms => weightedSum asgn (vs.zip ms)
  | none => plainSum asgn vs

/-! ## `MaxSumConstraint` (constraint.rs lines 330-466) -/

/-- Forward-check pruning loop of `MaxSumConstraint::call`, multiplier branch
(constraint.rs lines 367-385): for each unassigned zipped variable, hide every
value with `sum + value * multiplier > max_sum`; a variable with no domain
entry is `return Ok(false)`.  There is no emptiness check. -/
def maxSumPrunePairs (max_sum sum : Int) (asgn : Assignments) :
    List (Variable × Int) → Domains → Option (Domains × Bool)
  | [], doms => some (doms, true)
  | (v, m) :: rest, doms =>
      if containsA asgn v then maxSumPrunePairs max_sum sum asgn rest doms
      else
        match lookupD doms v with
        | some d =>
            match hideValues d
                (d.values.filter (fun value => decide (sum + value * m > max_sum))) with
            | some d' => maxSumPrunePairs max_sum sum asgn rest (updateD doms v d')
            | none => none
        | none => some (doms, false)

/-- Forward-check pruning loop of `MaxSumConstraint::call`, plain branch
(constraint.rs lines 397-417). -/
def maxSumPruneVars (max_sum sum : Int) (asgn : Assignments) :
    List Variable → Domains → Option (Domains × Bool)
  | [], doms => some (doms, true)
  | v :: rest, doms =>
      if containsA asgn v then maxSumPruneVars max_sum sum asgn rest doms
      else
        match lookupD doms v with
        | some d =>
            match hideValues d
                (d.values.filter (fun value => decide (sum + value > max_sum))) with
            | some d' => maxSumPruneVars max_sum sum asgn rest (updateD doms v d')
            | none => none
        | none => some (doms, false)

/-- `MaxSumConstraint::call` (constraint.rs lines 346-420). -/
def MaxSumConstraint.call (max_value : Int) (multipliers : Option (List Int))
    (vars : List Variable) (domains : Domains) (assignments : Assignments)
    (forward_check : Bool) : Option (Domains × Except ConstraintError Bool) :=
  match multipliers with
  | some ms =>
      let sum := weightedSum assignments (vars.zip ms)
      if sum > max_value then some (domains, .ok false)
      else if forward_check then
        match maxSumPrunePairs max_value sum assignments (vars.zip ms) domains with
        | some (doms', true) => some (doms', .ok true)
        | some (doms', false) => some (doms', .ok false)
        | none => none
      else some (domains, .ok true)
  | none =>
      let sum := plainSum assignments vars
      if sum > max_value then some (domains, .ok false)
      else if forward_check then
        match maxSumPruneVars max_value sum assignments vars domains with
        | some (doms', true) => some (doms', .ok true)
        | some (doms', false) => some (doms', .ok false)
        | none => none
      else some (domains, .ok true)

/-! ## `ExactSumConstraint` (constraint.rs lines 469-622) -/

/-- Forward-check pruning loop of `ExactSumConstraint::call`, multiplier
branch (constraint.rs lines 509-529): like MaxSum's, but a missing domain
entry is silently skipped and a pruned-to-empty domain is `return Ok(false)`. -/
def exactSumPrunePairs (exact_sum sum : Int) (asgn : Assignments) :
    List (Variable × Int) → Domains → Option (Domains × Bool)
  | [], doms => some (doms, true)
  | (v, m) :: rest, doms =>
      if containsA asgn v then exactSumPrunePairs exact_sum sum asgn rest doms
      else
        match lookupD doms v with
        | some d =>
            match hideValues d
                (d.values.filter (fun value => decide (sum + value * m > exact_sum))) with
            | some d' =>
                if d'.values.isEmpty then some (updateD doms v d', false)
                else exactSumPrunePairs exact_sum sum asgn rest (updateD doms v d')
            | none => none
        | none => exactSumPrunePairs exact_sum sum asgn rest doms

/-- Forward-check pruning loop of `ExactSumConstraint::call`, plain branch
(constraint.rs lines 544-565). -/
def exactSumPruneVars (exact_sum sum : Int) (asgn : Assignments) :
    List Variable → Domains → Option (Domains × Bool)
  | [], doms => some (doms, true)
  | v :: rest, doms =>
      if containsA asgn v then exactSumPruneVars exact_sum sum asgn rest doms
      else
        match lookupD doms v with
        | some d =>
            match hideValues d
                (d.values.filter (fun value => decide (sum + value > exact_sum))) with
            | some d' =>
                if d'.values.isEmpty then some (updateD doms v d', false)
                else exactSumPruneVars exact_sum sum asgn rest (updateD doms v d')
            | none => none
        | none => exactSumPruneVars exact_sum sum asgn rest doms

/-- `ExactSumConstraint::call` (constraint.rs lines 485-574).  The final
verdict is `Ok(sum <= exact)` when some (zipped) variable is missing and
`Ok(sum == exact)` otherwise. -/
def ExactSumConstraint.call (exact_value : Int) (multipliers : Option (List Int))
    (vars : List Variable) (domains : Domains) (assignments : Assignments)
    (forward_check : Bool) : Option (Domains × Except ConstraintError Bool) :=
  match multipliers with
  | some ms =>
      let sum := weightedSum assignments (vars.zip ms)
      let missing := missingPairs assignments (vars.zip ms)
      if sum > exact_value then some (domains, .ok false)
      else if forward_check && missing then
        match exactSumPrunePairs exact_value sum assignments (vars.zip ms) domains with
        | some (doms', true) =>
            some (doms', .ok (if missing then decide (sum ≤ exact_value)
                              else decide (sum = exact_value)))
        | some (doms', false) => some (doms', .ok false)
        | none => none
      else
        some (domains, .ok (if missing then decide (sum ≤ exact_value)
                            else decide (sum = exact_value)))
  | none =>
      let sum := plainSum assignments vars
      let missing := missingVars assignments vars
      if sum > exact_value then some (domains, .ok false)
      else if forward_check && missing then
        match exactSumPruneVars exact_value sum assignments vars domains with
        | some (doms', true) =>
            some (doms', .ok (if missing then decide (sum ≤ exact_value)
                              else decide (sum = exact_value)))
        | some (doms', false) => some (doms', .ok false)
        | none => none
      else
        some (domains, .ok (if missing then decide (sum ≤ exact_value)
                            else decide (sum = exact_value)))

/-! ## `MinSumConstraint` (constraint.rs lines 625-668) -/

/-- The early-return loop of `MinSumConstraint::call` (constraint.rs lines
647-651): `true` iff no listed variable is unassigned. -/
def allAssignedLoop (asgn : Assignments) : List Variable → Bool
  | [] => true
  | v :: rest => if !containsA asgn v then false else allAssignedLoop asgn rest

/-- `sum += assignments[variable] * multiplier` with *unguarded* indexing
(constraint.rs line 658); only reached when every variable is assigned, so
the `getD 0` default models an unreachable panic. -/
def minSumWeighted (asgn : Assignments) : List (Variable × Int) → Int
  | [] => 0
  | (v, m) :: rest => (lookupA asgn v).getD 0 * m + minSumWeighted asgn rest

/-- `sum += assignments[variable]` with unguarded indexing (constraint.rs
line 662). -/
def minSumPlain (asgn : Assignments) : List Variable → Int
  | [] => 0
  | v :: rest => (lookupA asgn v).getD 0 + minSumPlain asgn rest

/-- `MinSumConstraint::call` (constraint.rs lines 641-667): `Ok(true)` as
soon as any variable is unassigned (domains are never touched; the parameter
is `_domains`), otherwise `Ok(sum >= min)`. -/
def MinSumConstraint.call (min_value : Int) (multipliers : Option (List Int))
    (vars : List Variable) (domains : Domains) (assignments : Assignments)
    (_forward_check : Bool) : Option (Domains × Except ConstraintError Bool) :=
  if !allAssignedLoop assignments vars then some (domains, .ok true)
  else
    match multipliers with
    | some ms =>
        some (domains, .ok (decide (minSumWeighted assignments (vars.zip ms) ≥ min_value)))
    | none =>
        some (domains, .ok (decide (minSumPlain assignments vars ≥ min_value)))

/-! ## `AllEqualConstraint` (constraint.rs lines 274-327) -/

/-- `i32::MIN`, used by `AllEqualConstraint::call` as the "no value seen yet"
sentinel (constraint.rs line 290). -/
def intMin : Int := -2147483648

/-- The satisfaction loop of `AllEqualConstraint::call` (constraint.rs lines
291-299): `none` models the early `return Ok(false)`; otherwise the final
`single_value` is returned. -/
def allEqualLoop (asgn : Assignments) : List Variable → Int → Option Int
  | [], single_value => some single_value
  | v :: rest, single_value =>
      match lookupA asgn v with
      | some value =>
          if single_value = intMin then allEqualLoop asgn rest value
          else if value ≠ single_value then none
          else allEqualLoop asgn rest single_value
      | none => allEqualLoop asgn rest single_value

/-- The forward-check loop of `AllEqualConstraint::call` (constraint.rs lines
301-323): for each unassigned variable with a domain entry, `return Ok(false)`
if `single_value` is not live, otherwise hide every other live value. -/
def allEqualPrune (single_value : Int) (asgn : Assignments) :
    List Variable → Domains → Option (Domains × Bool)
  | [], doms => some (doms, true)
  | v :: rest, doms =>
      if containsA asgn v then allEqualPrune single_value asgn rest doms
      else
        match lookupD doms v with
        | some d =>
            if !d.values.contains single_value then some (doms, false)
            else
              match hideValues d (d.values.filter (fun value => value != single_value)) with
              | some d' => allEqualPrune single_value asgn rest (updateD doms v d')
              | none => none
        | none => allEqualPrune single_value asgn rest doms

/-- `AllEqualConstraint::call` (constraint.rs lines 284-326). -/
def AllEqualConstraint.call (vars : List Variable) (domains : Domains)
    (assignments : Assignments) (forward_check : Bool) :
    Option (Domains × Except ConstraintError Bool) :=
  match allEqualLoop assignments vars intMin with
  | none => some (domains, .ok false)
  | some single_value =>
      if forward_check && !(single_value == intMin) then
        match allEqualPrune single_value assignments vars domains with
        | some (doms', b) => some (doms', .ok b)
        | none => none
      else some (domains, .ok true)

/-! ## `AllDifferentConstraint` (constraint.rs lines 227-271) -/

/-- The satisfaction loop of `AllDifferentConstraint::call` (constraint.rs
lines 243-251): collect the assigned values in `seen`, failing (`none`) on a
repeat.  `seen` is a `HashMap<i32, bool>` in the source; the embedding keeps
its keys in insertion order (HashMap iteration order is unspecified in Rust;
none of the proved properties depend on it). -/
def allDifferentSeen (asgn : Assignments) : List Variable → List Int → Option (List Int)
  | [], seen => some seen
  | v :: rest, seen =>
      match lookupA asgn v with
      | some value =>
          if seen.contains value then none
          else allDifferentSeen asgn rest (seen ++ [value])
      | none => allDifferentSeen asgn rest seen

/-- The inner loop `for &value in seen.keys()` of the forward-check block
(constraint.rs lines 257-264): hide each seen value that is live, with an
emptiness check (`return Ok(false)`) right after each hide. -/
def allDifferentHideSeen : Domain → List Int → Option (Domain × Bool)
  | d, [] => some (d, true)
  | d, value :: rest =>
      if d.values.contains value then
        match d.hide_value value with
        | some d' =>
            if d'.values.isEmpty then some (d', false)
            else allDifferentHideSeen d' rest
        | none => none
      else allDifferentHideSeen d rest

/-- The forward-check loop of `AllDifferentConstraint::call` (constraint.rs
lines 254-267); variables without a domain entry are skipped. -/
def allDifferentPrune (seen : List Int) (asgn : Assignments) :
    List Variable → Domains → Option (Domains × Bool)
  | [], doms => some (doms, true)
  | v :: rest, doms =>
      if containsA asgn v then allDifferentPrune seen asgn rest doms
      else
        match lookupD doms v with
        | some d =>
            match allDifferentHideSeen d seen with
            | some (d', true) => allDifferentPrune seen asgn rest (updateD doms v d')
            | some (d', false) => some (updateD doms v d', false)
            | none => none
        | none => allDifferentPrune seen asgn rest doms

/-- `AllDifferentConstraint::call` (constraint.rs lines 237-270). -/
def AllDifferentConstraint.call (vars : List Variable) (domains : Domains)
    (assignments : Assignments) (forward_check : Bool) :
    Option (Domains × Except ConstraintError Bool) :=
  match allDifferentSeen assignments vars [] with
  | none => some (domains, .ok false)
  | some seen =>
      if forward_check then
        match allDifferentPrune seen assignments vars domains with
        | some (doms', true) => some (doms', .ok true)
        | some (doms', false) => some (doms', .ok false)
        | none => none
      else some (domains, .ok true)

/-! ## `SomeInSetConstraint` / `SomeNotInSetConstraint`
(constraint.rs lines 788-951) -/

/-- The counting loop of `SomeInSetConstraint::call` (constraint.rs lines
812-820): returns `(missing, found)`. -/
def someInSetCounts (set : List Int) (asgn : Assignments) :
    List Variable → Int × Int
  | [] => (0, 0)
  | v :: rest =>
      let mf := someInSetCounts set asgn rest
      match lookupA asgn v with
      | some x => (mf.1, mf.2 + if set.contains x then 1 else 0)
      | none => (mf.1 + 1, mf.2)

/-- The counting loop of `SomeNotInSetConstraint::call` (constraint.rs lines
895-903): `found` counts assigned values *not* in the set. -/
def someNotInSetCounts (set : List Int) (asgn : Assignments) :
    List Variable → Int × Int
  | [] => (0, 0)
  | v :: rest =>
      let mf := someNotInSetCounts set asgn rest
      match lookupA asgn v with
      | some x => (mf.1, mf.2 + if !set.contains x then 1 else 0)
      | none => (mf.1 + 1, mf.2)

/-- The forward-check loop of `SomeInSetConstraint::call` (constraint.rs
lines 833-853): hide every out-of-set value of each unassigned variable; a
variable without a domain entry is `return Ok(false)`. -/
def someInSetPrune (set : List Int) (asgn : Assignments) :
    List Variable → Domains → Option (Domains × Bool)
  | [], doms => some (doms, true)
  | v :: rest, doms =>
      if containsA asgn v then someInSetPrune set asgn rest doms
      else
        match lookupD doms v with
        | some d =>
            match hideValues d (d.values.filter (fun value => !set.contains value)) with
            | some d' => someInSetPrune set asgn rest (updateD doms v d')
            | none => none
        | none => some (doms, false)

/-- The forward-check loop of `SomeNotInSetConstraint::call` (constraint.rs
lines 916-936): hides the *in-set* values instead. -/
def someNotInSetPrune (set : List Int) (asgn : Assignments) :
    List Variable → Domains → Option (Domains × Bool)
  | [], doms => some (doms, true)
  | v :: rest, doms =>
      if containsA asgn v then someNotInSetPrune set asgn rest doms
      else
        match lookupD doms v with
        | some d =>
            match hideValues d (d.values.filter (fun value => set.contains value)) with
            | some d' => someNotInSetPrune set asgn rest (updateD doms v d')
            | none => none
        | none => some (doms, false)

/-- `SomeInSetConstraint::call` (constraint.rs lines 806-867). -/
def SomeInSetConstraint.call (set : List Int) (n : Int) (exactFlag : Bool)
    (vars : List Variable) (domains : Domains) (assignments : Assignments)
    (forward_check : Bool) : Option (Domains × Except ConstraintError Bool) :=
  let mf := someInSetCounts set assignments vars
  let missing := mf.1
  let found := mf.2
  if missing ≠ 0 then
    if (if exactFlag then !(decide (found ≤ n) && decide (n ≤ missing + found))
        else decide (n > missing + found)) then
      some (domains, .ok false)
    else if forward_check && decide (n - found = missing) then
      match someInSetPrune set assignments vars domains with
      | some (doms', true) => some (doms', .ok true)
      | some (doms', false) => some (doms', .ok false)
      | none => none
    else some (domains, .ok true)
  else
    if exactFlag then some (domains, .ok (decide (found = n)))
    else some (domains, .ok (decide (found ≥ n)))

/-- `SomeNotInSetConstraint::call` (constraint.rs lines 889-950). -/
def SomeNotInSetConstraint.call (set : List Int) (n : Int) (exactFlag : Bool)
    (vars : List Variable) (domains : Domains) (assignments : Assignments)
    (forward_check : Bool) : Option (Domains × Except ConstraintError Bool) :=
  let mf := someNotInSetCounts set assignments vars
  let missing := mf.1
  let found := mf.2
  if missing ≠ 0 then
    if (if exactFlag then !(decide (found ≤ n) && decide (n ≤ missing + found))
        else decide (n > missing + found)) then
      some (domains, .ok false)
    else if forward_check && decide (n - found = missing) then
      match someNotInSetPrune set assignments vars domains with
      | some (doms', true) => some (doms', .ok true)
      | some (doms', false) => some (doms', .ok false)
      | none => none
    else some (domains, .ok true)
  else
    if exactFlag then some (domains, .ok (decide (found = n)))
    else some (domains, .ok (decide (found ≥ n)))

/-! ## The shared `Constraint::forward_check` helper and
`FunctionConstraint` (constraint.rs lines 112-224) -/

/-- The variable-selection loop of `Constraint::forward_check`
(constraint.rs lines 118-129).  Note the condition of the source: it tests
`assignments.contains_key(variable)` — the loop inspects *assigned*
variables.  Returns the final `(unassigned_variable, flag)`; `break` leaves
both as they were when the second hit occurred. -/
def fcSelect (asgn : Assignments) (unassigned : Variable) :
    List Variable → Variable → Variable × Bool
  | [], uv => (uv, false)
  | v :: rest, uv =>
      if containsA asgn v then
        if uv = unassigned then fcSelect asgn unassigned rest v
        else (uv, true)
      else fcSelect asgn unassigned rest uv

/-- The trial loop of `Constraint::forward_check` (constraint.rs lines
145-154): for each snapshot value, overwrite `assignments[uv]`, re-invoke
`call` with `forward_check = false`, and collect the value when the result is
`Ok(false)` (errors are ignored).  `callF` abstracts the `self.call` of the
implementing constraint; it may mutate both maps. -/
def fcTrial
    (callF : List Variable → Domains → Assignments → Bool →
      Option (Domains × Assignments × Except ConstraintError Bool))
    (vars : List Variable) (uv : Variable) :
    List Int → Domains → Assignments → List Int →
    Option (Domains × Assignments × List Int)
  | [], doms, asgn, to_hide => some (doms, asgn, to_hide)
  | value :: rest, doms, asgn, to_hide =>
      match callF vars doms (insertA asgn uv value) false with
      | some (doms', asgn', res) =>
          match res with
          | .ok false => fcTrial callF vars uv rest doms' asgn' (to_hide ++ [value])
          | _ => fcTrial callF vars uv rest doms' asgn' to_hide
      | none => none

/-- `Constraint::forward_check` (constraint.rs lines 112-168), the shared
default trait method, parameterised by the implementor's `call`.  After the
trials it hides the collected values from `unassigned_variable`'s domain
(`get_mut(...).unwrap()` panics — `none` — if the entry vanished) and removes
`unassigned_variable` from the assignment mapping; a missing domain at the
snapshot is `return false`. -/
def Constraint.forward_check
    (callF : List Variable → Domains → Assignments → Bool →
      Option (Domains × Assignments × Except ConstraintError Bool))
    (vars : List Variable) (domains : Domains) (assignments : Assignments)
    (unassigned : Variable) : Option (Domains × Assignments × Bool) :=
  let sel := fcSelect assignments unassigned vars unassigned
  if sel.2 then some (domains, assignments, true)
  else if sel.1 = unassigned then some (domains, assignments, true)
  else
    match lookupD domains sel.1 with
    | some dom =>
        match fcTrial callF vars sel.1 dom.values domains assignments [] with
        | some (doms', asgn', to_hide) =>
            match lookupD doms' sel.1 with
            | some dom' =>
                match hideValues dom' to_hide with
                | some dom'' =>
                    some (updateD doms' sel.1 dom'', removeA asgn' sel.1, true)
                | none => none
            | none => none
        | none => none
    | none => some (domains, assignments, false)

/-- The parameter collection of `FunctionConstraint::call` (constraint.rs
lines 202-210): assigned values in variable order, plus the missing count. -/
def functionParms (asgn : Assignments) : List Variable → List Int × Nat
  | [] => ([], 0)
  | v :: rest =>
      let pm := functionParms asgn rest
      match lookupA asgn v with
      | some x => (x :: pm.1, pm.2)
      | none => (pm.1, pm.2 + 1)

/-- `FunctionConstraint::call` restricted to `forward_check = false` — the
shape of the recursive `self.call(variables, domains, assignments, false)`
performed inside the `forward_check` helper.  With `forward_check = false`
the result is `Ok(assigned || function(parms)?)` in the partial case and
`function(parms)` in the fully-assigned case; `||` and `?` short-circuit. -/
def functionCallNoFC (f : List Int → Except ConstraintError Bool) (assigned : Bool)
    (vars : List Variable) (domains : Domains) (asgn : Assignments) (_fc : Bool) :
    Option (Domains × Assignments × Except ConstraintError Bool) :=
  let pm := functionParms asgn vars
  if pm.2 ≠ 0 then
    match (if assigned then Except.ok true else f pm.1) with
    | .error e => some (domains, asgn, .error e)
    | .ok b => some (domains, asgn, .ok b)
  else some (domains, asgn, f pm.1)

/-- `FunctionConstraint::call` (constraint.rs lines 197-223).  In the partial
case the result is
`Ok((assigned || function(parms)?) && (!forward_check || missing != 1 || self.forward_check(...)))`
with left-to-right short-circuit evaluation. -/
def FunctionConstraint.call (f : List Int → Except ConstraintError Bool)
    (assigned : Bool) (vars : List Variable) (domains : Domains)
    (asgn : Assignments) (forward_check : Bool) :
    Option (Domains × Assignments × Except ConstraintError Bool) :=
  let pm := functionParms asgn vars
  if pm.2 ≠ 0 then
    match (if assigned then Except.ok true else f pm.1) with
    | .error e => some (domains, asgn, .error e)
    | .ok b =>
        if !b then some (domains, asgn, .ok false)
        else if !forward_check then some (domains, asgn, .ok true)
        else if pm.2 ≠ 1 then some (domains, asgn, .ok true)
        else
          match Constraint.forward_check (functionCallNoFC f assigned) vars domains
              asgn Variable.unassigned with
          | some (doms', asgn', b') => some (doms', asgn', .ok b')
          | none => none
  else some (domains, asgn, f pm.1)

/-! ## Statement-side definitions (for comparison with the claims) -/

/-- Assigned values of the listed variables, in list order. -/
def assignedVals (asgn : Assignments) (vs : List Variable) : List Int :=
  vs.filterMap (lookupA asgn)

/-- Modelled from the claim C7's wording, for comparison: every assigned
variable's value equals the first assigned value seen. -/
def allEqualSpecRule (asgn : Assignments) (vs : List Variable) : Bool :=
  match assignedVals asgn vs with
  | [] => true
  | x :: rest => rest.all (fun y => y == x)

/-- The per-domain effect claimed for AllEqual's forward check: keep only the
fixed value `s` live, every other live value moves to the end of `hidden`. -/
def pruneToSingle (s : Int) (d : Domain) : Domain :=
  { values := d.values.filter (fun x => x == s),
    hidden := d.hidden ++ d.values.filter (fun x => x != s),
    states := d.states }

/-- Concrete variables used by witnesses and counterexamples. -/
def vx : Variable := ⟨"x"⟩

/-- See `vx`. -/
def vy : Variable := ⟨"y"⟩

/-- See `vx`. -/
def vz : Variable := ⟨"z"⟩

/-! # Theorems -/

/-! ## Claim C1: checkpoint symmetry -/

/-- **C1** (code_bug evidence). Checkpoint symmetry fails: on the domain
`{1,2,3}`, after `push_state` and two `hide_value` calls on live values,
`pop_state` panics (index out of bounds in the `hidden.remove(i)` loop of
domain.rs lines 34-36) instead of restoring the live/hidden sets that were
current before `push_state`.  The evaluation below returns `none` (= panic),
whereas the claim requires the pre-checkpoint state back. -/
theorem claim_C1_pop_state_panics_after_two_hides :
    (Option.bind
      (Option.bind ((Domain.new [1, 2, 3]).push_state.hide_value 1)
        (fun d => d.hide_value 2))
      Domain.pop_state) = none := by
  decide

/-! ## Claim C9: the "unassigned" sentinel variable -/

/-- **C9** (counterexample). The sentinel is *not* distinguishable from every
constructible variable: a caller who builds a variable named `"UNASSIGNED"`
gets a variable equal (under the map-key equality, which is name equality) to
`Variable::unassigned()`. -/
theorem claim_C9_counterexample :
    Variable.new "UNASSIGNED" = Variable.unassigned := by
  rfl

/-- **C9** (amended). For every name other than the literal `"UNASSIGNED"`,
`Variable::new(name)` differs from `Variable::unassigned()`; the claimed
distinguishability holds only under that side condition. -/
theorem claim_C9_sentinel_distinct (name : String) (h : name ≠ "UNASSIGNED") :
    Variable.new name ≠ Variable.unassigned := by
  intro hc
  exact h (congrArg Variable.name hc)

/-- Witness for C9: the amended statement applied at the concrete name `"x"`. -/
theorem claim_C9_witness :
    Variable.new "x" ≠ Variable.unassigned :=
  claim_C9_sentinel_distinct "x" (by decide)

/-! ## Claim C4: InSet/NotInSet preprocessing -/

/-- **C4** (code_bug evidence). On the spec's own example — initial domain
`{1,2,3,4,5}` constrained by `InSet({2,4})` — preprocessing does **not**
produce the domain `{2,4}`: the collected removal indices are `[0,2,4]`, and
removing them in order from the shrinking vector first deletes `1`, then
wrongly deletes `4` (a member of the set), and finally panics with an
out-of-bounds `Vec::remove(4)` on a vector of length 3.  The evaluation
returns `none` (= panic). -/
theorem claim_C4_inset_preprocess_panics :
    InSetConstraint.preProcessDomain [2, 4] (Domain.new [1, 2, 3, 4, 5]) = none := by
  decide

/-! ## Claim C5: InSet/NotInSet `call` is always a fatal error -/

/-- **C5** (confirmed). For every input — any variable list, domain map,
assignment map and forward-check flag — `InSetConstraint::call` and
`NotInSetConstraint::call` return the fatal engine-invariant `Err` (leaving
the domains untouched) and never `Ok(false)` or `Ok(true)`. -/
theorem claim_C5_inset_call_always_errors (set : List Int)
    (vars : List Variable) (domains : Domains) (assignments : Assignments)
    (forward_check : Bool) :
    InSetConstraint.call set vars domains assignments forward_check =
      some (domains, .error (ConstraintError.new "Can't happen because of preprocess."))
    ∧ NotInSetConstraint.call set vars domains assignments forward_check =
      some (domains, .error (ConstraintError.new "Can't happen because of preprocess.")) :=
  ⟨rfl, rfl⟩

/-! ## Claim C2: the shared `forward_check` helper -/

/-- **C2** (code_bug evidence). The selection loop of `Constraint::forward_check`
tests `assignments.contains_key(variable)` — not its negation — so it hunts for
the lone **assigned** variable (contradicting the comment at constraint.rs lines
133-134 and the name `unassigned_variable`).  Concrete run: variables `[x, y]`,
`x ↦ 1` assigned, `y` unassigned with domain `{1,2}`, inner `call` constantly
`Ok(true)`.  The claim requires the helper to identify `y`, trial-assign `y`'s
values and afterwards leave the assignment map without `y` (hence still
`{x ↦ 1}`).  Instead the code selects `x`, trial-assigns over `x`'s domain and
finally deletes `x`'s real assignment: the returned map is empty and `y`'s
domain was never considered. -/
theorem claim_C2_forward_check_wrong_selection :
    Constraint.forward_check (fun _ doms asgn _ => some (doms, asgn, .ok true))
      [vx, vy] [(vx, Domain.new [1, 2]), (vy, Domain.new [1, 2])] [(vx, 1)]
      Variable.unassigned =
      some ([(vx, Domain.new [1, 2]), (vy, Domain.new [1, 2])], [], true) := by
  decide

/-! ## Claim C3: pruned-to-empty reporting -/

/-- **C3** (counterexample). `MaxSumConstraint::call` with `forward_check = true`
can empty an unassigned variable's domain and still return `Ok(true)`: bound 5,
variables `[x, y]`, `x ↦ 5` assigned, `y` unassigned with domain `{1,2}`.  Both
of `y`'s values overflow the bound and are hidden — the domain is left with zero
live values — yet the verdict is `Ok(true)`, because MaxSum's pruning loop
(constraint.rs lines 397-417) has no emptiness check. -/
theorem claim_C3_counterexample_maxsum_empties_domain :
    MaxSumConstraint.call 5 none [vx, vy] [(vy, Domain.new [1, 2])] [(vx, 5)] true =
      some ([(vy, { values := [], hidden := [1, 2], states := [] })], .ok true) := by
  rfl

/-! ## Association-list lemmas -/

/-- Updating one key leaves every other key's lookup unchanged. -/
theorem lookupD_updateD_ne (doms : Domains) (v w : Variable) (d : Domain)
    (h : w ≠ v) : lookupD (updateD doms v d) w = lookupD doms w := by
  induction doms with
  | nil => rfl
  | cons e rest ih =>
    obtain ⟨u, du⟩ := e
    by_cases hu : u = v
    · subst hu
      simp only [updateD, if_pos rfl, lookupD]
      rw [if_neg (fun hvw => h hvw.symm), if_neg (fun hvw => h hvw.symm)]
    · simp only [updateD, if_neg hu, lookupD]
      by_cases huw : u = w
      · rw [if_pos huw, if_pos huw]
      · rw [if_neg huw, if_neg huw, ih]

/-- Updating a present key makes its lookup the new value. -/
theorem lookupD_updateD_self (doms : Domains) (v : Variable) (d0 d : Domain)
    (h : lookupD doms v = some d0) : lookupD (updateD doms v d) v = some d := by
  induction doms with
  | nil => simp [lookupD] at h
  | cons e rest ih =>
    obtain ⟨u, du⟩ := e
    by_cases hu : u = v
    · subst hu
      simp [updateD, lookupD]
    · simp only [lookupD, if_neg hu] at h
      simp only [updateD, if_neg hu, lookupD, if_neg hu]
      exact ih h

/-! ## Claim C7 (counterexample): AllEqual and the `i32::MIN` sentinel -/

/-- **C7** (counterexample). With `x ↦ i32::MIN` and `y ↦ 5`, the value of `y`
differs from the first assigned value seen (`i32::MIN`), so the claim — which
admits *every* value, with no excluded sentinel — requires `Ok(false)`.  The
code uses `i32::MIN` as its internal "no value seen yet" marker (constraint.rs
line 290), mistakes `x`'s genuine assignment for "nothing seen", and returns
`Ok(true)`. -/
theorem claim_C7_counterexample :
    AllEqualConstraint.call [vx, vy] [] [(vx, intMin), (vy, 5)] false =
      some ([], .ok true) := by
  rfl

/-! ## Claim C8: MinSum -/

/-- The early-return loop of MinSum is `List.all`. -/
theorem allAssignedLoop_eq (asgn : Assignments) (vs : List Variable) :
    allAssignedLoop asgn vs = vs.all (containsA asgn) := by
  induction vs with
  | nil => rfl
  | cons v rest ih =>
    cases h : containsA asgn v <;>
      simp [allAssignedLoop, List.all_cons, h, ih]

/-- When every listed pair's variable is assigned, MinSum's unguarded indexed
sum agrees with the guarded weighted sum. -/
theorem minSumWeighted_eq_weightedSum (asgn : Assignments) :
    ∀ (pairs : List (Variable × Int)),
      (∀ p ∈ pairs, containsA asgn p.1 = true) →
      minSumWeighted asgn pairs = weightedSum asgn pairs := by
  intro pairs
  induction pairs with
  | nil => intro _; rfl
  | cons p rest ih =>
    intro hall
    obtain ⟨v, m⟩ := p
    have hv : containsA asgn v = true := hall (v, m) (List.mem_cons_self _ rest)
    obtain ⟨x, hx⟩ := Option.isSome_iff_exists.mp hv
    simp only [minSumWeighted, weightedSum, hx, Option.getD_some]
    rw [ih (fun u hu => hall u (List.mem_cons_of_mem _ hu))]

/-- Same for the plain (no-multipliers) sum. -/
theorem minSumPlain_eq_plainSum (asgn : Assignments) :
    ∀ (vs : List Variable),
      (∀ v ∈ vs, containsA asgn v = true) →
      minSumPlain asgn vs = plainSum asgn vs := by
  intro vs
  induction vs with
  | nil => intro _; rfl
  | cons v rest ih =>
    intro hall
    have hv : containsA asgn v = true := hall v (List.mem_cons_self v rest)
    obtain ⟨x, hx⟩ := Option.isSome_iff_exists.mp hv
    simp only [minSumPlain, plainSum, hx, Option.getD_some]
    rw [ih (fun u hu => hall u (List.mem_cons_of_mem v hu))]

/-- **C8** (confirmed). `MinSumConstraint::call` returns `Ok(true)` whenever at
least one listed variable is unassigned — with the domain map returned exactly
as given, whatever the forward-check flag — and, when every variable is
assigned, returns `Ok(true)` iff the (multiplier-weighted) sum of the assigned
values is ≥ the bound. -/
theorem claim_C8_minsum_vacuous_and_final (min_value : Int)
    (multipliers : Option (List Int)) (vars : List Variable) (domains : Domains)
    (assignments : Assignments) (forward_check : Bool) :
    MinSumConstraint.call min_value multipliers vars domains assignments forward_check =
      some (domains, .ok (if vars.all (containsA assignments)
        then decide (sumCfg assignments multipliers vars ≥ min_value)
        else true)) := by
  unfold MinSumConstraint.call
  rw [allAssignedLoop_eq]
  cases hall : vars.all (containsA assignments) with
  | false => simp
  | true =>
    have hmem : ∀ v ∈ vars, containsA assignments v = true := by
      intro v hv
      exact List.all_eq_true.mp hall v hv
    cases multipliers with
    | none =>
      simp [sumCfg, minSumPlain_eq_plainSum assignments vars hmem]
    | some ms =>
      have hpairs : ∀ p ∈ vars.zip ms, containsA assignments p.1 = true := by
        intro p hp
        exact hmem p.1 (List.of_mem_zip hp).1
      simp [sumCfg, minSumWeighted_eq_weightedSum assignments (vars.zip ms) hpairs]

/-! ## Pruned-to-empty preservation lemmas -/

/-- ExactSum's plain pruning loop never turns a nonempty domain empty on a
successful (`true`) run: every hide is followed by the emptiness check. -/
theorem exactSumPruneVars_preserves (exact_sum sum : Int) (asgn : Assignments)
    (v : Variable) :
    ∀ (vs : List Variable) (doms doms' : Domains) (d : Domain),
      exactSumPruneVars exact_sum sum asgn vs doms = some (doms', true) →
      lookupD doms v = some d → d.values ≠ [] →
      ∃ d', lookupD doms' v = some d' ∧ d'.values ≠ [] := by
  intro vs
  induction vs with
  | nil =>
    intro doms doms' d h hl hne
    simp only [exactSumPruneVars, Option.some.injEq, Prod.mk.injEq] at h
    exact ⟨d, h.1 ▸ hl, hne⟩
  | cons w rest ih =>
    intro doms doms' d h hl hne
    rw [exactSumPruneVars] at h
    by_cases hw : containsA asgn w = true
    · rw [if_pos hw] at h
      exact ih doms doms' d h hl hne
    · rw [if_neg hw] at h
      cases hld : lookupD doms w with
      | none =>
        simp only [hld] at h
        exact ih doms doms' d h hl hne
      | some dw =>
        simp only [hld] at h
        cases hh : hideValues dw
            (dw.values.filter fun value => decide (sum + value > exact_sum)) with
        | none => simp only [hh] at h; exact Option.noConfusion h
        | some dw' =>
          simp only [hh] at h
          by_cases he : dw'.values.isEmpty = true
          · rw [if_pos he] at h
            simp at h
          · rw [if_neg he] at h
            have hne' : dw'.values ≠ [] := fun hnil => he (by rw [hnil]; rfl)
            by_cases hwv : w = v
            · subst hwv
              have h2 : lookupD (updateD doms w dw') w = some dw' :=
                lookupD_updateD_self doms w dw dw' hld
              exact ih _ doms' dw' h h2 hne'
            · have h2 : lookupD (updateD doms w dw') v = some d := by
                rw [lookupD_updateD_ne doms w v dw' (fun hvw => hwv hvw.symm)]
                exact hl
              exact ih _ doms' d h h2 hne


/-- Multiplier-branch analogue of `exactSumPruneVars_preserves`. -/
theorem exactSumPrunePairs_preserves (exact_sum sum : Int) (asgn : Assignments)
    (v : Variable) :
    ∀ (pairs : List (Variable × Int)) (doms doms' : Domains) (d : Domain),
      exactSumPrunePairs exact_sum sum asgn pairs doms = some (doms', true) →
      lookupD doms v = some d → d.values ≠ [] →
      ∃ d', lookupD doms' v = some d' ∧ d'.values ≠ [] := by
  intro pairs
  induction pairs with
  | nil =>
    intro doms doms' d h hl hne
    simp only [exactSumPrunePairs, Option.some.injEq, Prod.mk.injEq] at h
    exact ⟨d, h.1 ▸ hl, hne⟩
  | cons p rest ih =>
    obtain ⟨w, m⟩ := p
    intro doms doms' d h hl hne
    rw [exactSumPrunePairs] at h
    by_cases hw : containsA asgn w = true
    · rw [if_pos hw] at h
      exact ih doms doms' d h hl hne
    · rw [if_neg hw] at h
      cases hld : lookupD doms w with
      | none =>
        simp only [hld] at h
        exact ih doms doms' d h hl hne
      | some dw =>
        simp only [hld] at h
        cases hh : hideValues dw
            (dw.values.filter fun value => decide (sum + value * m > exact_sum)) with
        | none => simp only [hh] at h; exact Option.noConfusion h
        | some dw' =>
          simp only [hh] at h
          by_cases he : dw'.values.isEmpty = true
          · rw [if_pos he] at h
            simp at h
          · rw [if_neg he] at h
            have hne' : dw'.values ≠ [] := fun hnil => he (by rw [hnil]; rfl)
            by_cases hwv : w = v
            · subst hwv
              have h2 : lookupD (updateD doms w dw') w = some dw' :=
                lookupD_updateD_self doms w dw dw' hld
              exact ih _ doms' dw' h h2 hne'
            · have h2 : lookupD (updateD doms w dw') v = some d := by
                rw [lookupD_updateD_ne doms w v dw' (fun hvw => hwv hvw.symm)]
                exact hl
              exact ih _ doms' d h h2 hne

/-- AllDifferent's inner hide-loop checks emptiness right after each hide, so
a successful (`true`) run leaves a nonempty domain nonempty. -/
theorem allDifferentHideSeen_nonempty :
    ∀ (seen : List Int) (d d' : Domain),
      allDifferentHideSeen d seen = some (d', true) → d.values ≠ [] →
      d'.values ≠ [] := by
  intro seen
  induction seen with
  | nil =>
    intro d d' h hne
    simp only [allDifferentHideSeen, Option.some.injEq, Prod.mk.injEq] at h
    exact h.1 ▸ hne
  | cons value rest ih =>
    intro d d' h hne
    rw [allDifferentHideSeen] at h
    by_cases hc : d.values.contains value = true
    · rw [if_pos hc] at h
      cases hh : d.hide_value value with
      | none => simp only [hh] at h; exact Option.noConfusion h
      | some d1 =>
        simp only [hh] at h
        by_cases he : d1.values.isEmpty = true
        · rw [if_pos he] at h
          simp at h
        · rw [if_neg he] at h
          exact ih d1 d' h (fun hnil => he (by rw [hnil]; rfl))
    · rw [if_neg hc] at h
      exact ih d d' h hne

/-- AllDifferent's pruning loop preserves nonemptiness on a successful run. -/
theorem allDifferentPrune_preserves (seen : List Int) (asgn : Assignments)
    (v : Variable) :
    ∀ (vs : List Variable) (doms doms' : Domains) (d : Domain),
      allDifferentPrune seen asgn vs doms = some (doms', true) →
      lookupD doms v = some d → d.values ≠ [] →
      ∃ d', lookupD doms' v = some d' ∧ d'.values ≠ [] := by
  intro vs
  induction vs with
  | nil =>
    intro doms doms' d h hl hne
    simp only [allDifferentPrune, Option.some.injEq, Prod.mk.injEq] at h
    exact ⟨d, h.1 ▸ hl, hne⟩
  | cons w rest ih =>
    intro doms doms' d h hl hne
    rw [allDifferentPrune] at h
    by_cases hw : containsA asgn w = true
    · rw [if_pos hw] at h
      exact ih doms doms' d h hl hne
    · rw [if_neg hw] at h
      cases hld : lookupD doms w with
      | none =>
        simp only [hld] at h
        exact ih doms doms' d h hl hne
      | some dw =>
        simp only [hld] at h
        cases hh : allDifferentHideSeen dw seen with
        | none => simp only [hh] at h; exact Option.noConfusion h
        | some pr =>
          obtain ⟨dw', b⟩ := pr
          cases b with
          | false =>
            simp only [hh] at h
            simp at h
          | true =>
            simp only [hh] at h
            by_cases hwv : w = v
            · subst hwv
              have hdd : dw = d := by
                rw [hl] at hld
                exact (Option.some.injEq _ _).mp hld.symm
              have hne' : dw'.values ≠ [] :=
                allDifferentHideSeen_nonempty seen dw dw' hh (hdd ▸ hne)
              have h2 : lookupD (updateD doms w dw') w = some dw' :=
                lookupD_updateD_self doms w dw dw' hld
              exact ih _ doms' dw' h h2 hne'
            · have h2 : lookupD (updateD doms w dw') v = some d := by
                rw [lookupD_updateD_ne doms w v dw' (fun hvw => hwv hvw.symm)]
                exact hl
              exact ih _ doms' d h h2 hne

/-- **C3** (amended). Among the two constraints the claim cites,
`ExactSumConstraint::call` does have the property — whenever it is invoked
with `forward_check = true` and returns `Ok(true)`, every unassigned listed
variable whose domain was nonempty on entry still has at least one live
value, because each pruning step is followed by an emptiness check that
returns `Ok(false)` — and `AllDifferentConstraint::call` checks likewise;
but `MaxSumConstraint::call` performs the same pruning with **no** emptiness
check and can answer `Ok(true)` with a domain it has just emptied (see the
counterexample theorem). -/
theorem claim_C3_pruned_to_empty_reported (exact_value : Int)
    (multipliers : Option (List Int)) (vars : List Variable)
    (domains doms' : Domains) (assignments : Assignments)
    (v : Variable) (d : Domain)
    (hmem : v ∈ vars) (hunassigned : containsA assignments v = false)
    (hd : lookupD domains v = some d) (hne : d.values ≠ []) :
    (ExactSumConstraint.call exact_value multipliers vars domains assignments true =
        some (doms', .ok true) →
      ∃ d', lookupD doms' v = some d' ∧ d'.values ≠ [])
    ∧ (AllDifferentConstraint.call vars domains assignments true =
        some (doms', .ok true) →
      ∃ d', lookupD doms' v = some d' ∧ d'.values ≠ []) := by
  constructor
  · intro h
    cases multipliers with
    | some ms =>
      simp only [ExactSumConstraint.call] at h
      by_cases hc1 : weightedSum assignments (vars.zip ms) > exact_value
      · rw [if_pos hc1] at h
        simp at h
      · rw [if_neg hc1] at h
        by_cases hc2 : (true && missingPairs assignments (vars.zip ms)) = true
        · rw [if_pos hc2] at h
          cases hp : exactSumPrunePairs exact_value
              (weightedSum assignments (vars.zip ms)) assignments (vars.zip ms)
              domains with
          | none => simp only [hp] at h; exact Option.noConfusion h
          | some pr =>
            obtain ⟨doms2, b⟩ := pr
            cases b with
            | false => simp only [hp] at h; simp at h
            | true =>
              simp only [hp] at h
              have hdd : doms2 = doms' := by
                have h2 := congrArg (fun o => o.map Prod.fst) h
                simpa using h2
              exact hdd ▸ exactSumPrunePairs_preserves exact_value
                (weightedSum assignments (vars.zip ms)) assignments v
                (vars.zip ms) domains doms2 d hp hd hne
        · rw [if_neg hc2] at h
          have hdd : domains = doms' := by
            have h2 := congrArg (fun o => o.map Prod.fst) h
            simpa using h2
          exact ⟨d, hdd ▸ hd, hne⟩
    | none =>
      simp only [ExactSumConstraint.call] at h
      by_cases hc1 : plainSum assignments vars > exact_value
      · rw [if_pos hc1] at h
        simp at h
      · rw [if_neg hc1] at h
        by_cases hc2 : (true && missingVars assignments vars) = true
        · rw [if_pos hc2] at h
          cases hp : exactSumPruneVars exact_value (plainSum assignments vars)
              assignments vars domains with
          | none => simp only [hp] at h; exact Option.noConfusion h
          | some pr =>
            obtain ⟨doms2, b⟩ := pr
            cases b with
            | false => simp only [hp] at h; simp at h
            | true =>
              simp only [hp] at h
              have hdd : doms2 = doms' := by
                have h2 := congrArg (fun o => o.map Prod.fst) h
                simpa using h2
              exact hdd ▸ exactSumPruneVars_preserves exact_value
                (plainSum assignments vars) assignments v vars domains doms2 d
                hp hd hne
        · rw [if_neg hc2] at h
          have hdd : domains = doms' := by
            have h2 := congrArg (fun o => o.map Prod.fst) h
            simpa using h2
          exact ⟨d, hdd ▸ hd, hne⟩
  · intro h
    simp only [AllDifferentConstraint.call] at h
    cases hs : allDifferentSeen assignments vars [] with
    | none => simp only [hs] at h; simp at h
    | some seen =>
      simp only [hs] at h
      rw [if_pos trivial] at h
      cases hp : allDifferentPrune seen assignments vars domains with
      | none => simp only [hp] at h; exact Option.noConfusion h
      | some pr =>
        obtain ⟨doms2, b⟩ := pr
        cases b with
        | false => simp only [hp] at h; simp at h
        | true =>
          simp only [hp] at h
          have hdd : doms2 = doms' := by
            have h2 := congrArg (fun o => o.map Prod.fst) h
            simpa using h2
          exact hdd ▸ allDifferentPrune_preserves seen assignments v vars
            domains doms2 d hp hd hne

/-- Witness for C3: ExactSum target 5, variables `[x, y]`, `x ↦ 1` assigned,
`y` unassigned with domain `{1,2}`.  The forward-checking call prunes nothing
(both extensions stay within the target), returns `Ok(true)`, and the theorem
yields a live value in `y`'s domain. -/
theorem claim_C3_witness :
    ∃ d', lookupD [(vy, Domain.new [1, 2])] vy = some d' ∧ d'.values ≠ [] :=
  (claim_C3_pruned_to_empty_reported 5 none [vx, vy] [(vy, Domain.new [1, 2])]
      [(vy, Domain.new [1, 2])] [(vx, 1)] vy (Domain.new [1, 2])
      (by decide) (by decide) (by decide) (by decide)).1 (by rfl)

/-! ## Claim C6: ExactSum vs MaxSum verdicts -/

/-- `missing` over a plain list is the negation of "all assigned". -/
theorem missingVars_eq_not_all (asgn : Assignments) (vs : List Variable) :
    missingVars asgn vs = !vs.all (containsA asgn) := by
  induction vs with
  | nil => rfl
  | cons v rest ih =>
    simp only [missingVars, List.any_cons, List.all_cons, Bool.not_and] at ih ⊢
    rw [ih]

/-- With a multiplier per variable, `missing` computed over the zip agrees
with `missing` over the variable list. -/
theorem missingPairs_zip (asgn : Assignments) :
    ∀ (vs : List Variable) (ms : List Int), ms.length = vs.length →
      missingPairs asgn (vs.zip ms) = missingVars asgn vs := by
  intro vs
  induction vs with
  | nil => intro ms _; rfl
  | cons v rest ih =>
    intro ms h
    cases ms with
    | nil => simp at h
    | cons m mrest =>
      simp only [List.zip_cons_cons, missingPairs, missingVars, List.any_cons]
      have h2 := ih mrest (by simpa using h)
      simp only [missingPairs, missingVars] at h2
      rw [h2]

/-- **C6** (confirmed, with the implicit well-formedness proviso that a
configured multiplier list has one multiplier per variable — the code zips
and would silently ignore surplus variables otherwise).  With
`forward_check = false` (the pure satisfaction check, no domain access):
`ExactSumConstraint::call` answers `Ok(sum == target)` when every variable is
assigned and `Ok(sum <= target)` otherwise; `MaxSumConstraint::call` answers
`Ok(sum <= bound)` in both cases; consequently the two verdicts can differ
only in the fully-assigned case. -/
theorem claim_C6_exactsum_vs_maxsum (target : Int)
    (multipliers : Option (List Int)) (vars : List Variable)
    (domains : Domains) (assignments : Assignments)
    (hm : ∀ ms, multipliers = some ms → ms.length = vars.length) :
    ExactSumConstraint.call target multipliers vars domains assignments false =
      some (domains, .ok (if vars.all (containsA assignments)
        then decide (sumCfg assignments multipliers vars = target)
        else decide (sumCfg assignments multipliers vars ≤ target)))
    ∧ MaxSumConstraint.call target multipliers vars domains assignments false =
      some (domains, .ok (decide (sumCfg assignments multipliers vars ≤ target)))
    ∧ (vars.all (containsA assignments) = false →
        (ExactSumConstraint.call target multipliers vars domains assignments
            false).map (fun p => p.2) =
        (MaxSumConstraint.call target multipliers vars domains assignments
            false).map (fun p => p.2)) := by
  have hE : ExactSumConstraint.call target multipliers vars domains assignments false =
      some (domains, .ok (if vars.all (containsA assignments)
        then decide (sumCfg assignments multipliers vars = target)
        else decide (sumCfg assignments multipliers vars ≤ target))) := by
    cases multipliers with
    | none =>
      simp only [ExactSumConstraint.call, sumCfg]
      by_cases hc1 : plainSum assignments vars > target
      · rw [if_pos hc1]
        have h1 : ¬(plainSum assignments vars = target) := by omega
        have h2 : ¬(plainSum assignments vars ≤ target) := by omega
        simp [h1, h2]
      · rw [if_neg hc1]
        rw [missingVars_eq_not_all]
        cases hall : vars.all (containsA assignments) <;> simp [hall]
    | some ms =>
      have hlen := hm ms rfl
      simp only [ExactSumConstraint.call, sumCfg]
      by_cases hc1 : weightedSum assignments (vars.zip ms) > target
      · rw [if_pos hc1]
        have h1 : ¬(weightedSum assignments (vars.zip ms) = target) := by omega
        have h2 : ¬(weightedSum assignments (vars.zip ms) ≤ target) := by omega
        simp [h1, h2]
      · rw [if_neg hc1]
        rw [missingPairs_zip assignments vars ms hlen, missingVars_eq_not_all]
        cases hall : vars.all (containsA assignments) <;> simp [hall]
  have hM : MaxSumConstraint.call target multipliers vars domains assignments false =
      some (domains, .ok (decide (sumCfg assignments multipliers vars ≤ target))) := by
    cases multipliers with
    | none =>
      simp only [MaxSumConstraint.call, sumCfg]
      by_cases hc1 : plainSum assignments vars > target
      · rw [if_pos hc1]
        have h2 : ¬(plainSum assignments vars ≤ target) := by omega
        simp [h2]
      · rw [if_neg hc1]
        have h2 : plainSum assignments vars ≤ target := by omega
        simp [h2]
    | some ms =>
      simp only [MaxSumConstraint.call, sumCfg]
      by_cases hc1 : weightedSum assignments (vars.zip ms) > target
      · rw [if_pos hc1]
        have h2 : ¬(weightedSum assignments (vars.zip ms) ≤ target) := by omega
        simp [h2]
      · rw [if_neg hc1]
        have h2 : weightedSum assignments (vars.zip ms) ≤ target := by omega
        simp [h2]
  refine ⟨hE, hM, ?_⟩
  intro hall
  rw [hE, hM]
  simp [hall]

/-- Witness for C6: target/bound 5, multipliers `[2, 3]`, variables `[x, y]`,
only `x ↦ 1` assigned (weighted partial sum 2).  Both constraints answer
`Ok(true)` and their verdicts coincide, as the theorem demands for a
partially-assigned tuple. -/
theorem claim_C6_witness :
    (ExactSumConstraint.call 5 (some [2, 3]) [vx, vy] [] [(vx, 1)] false =
      some ([], .ok true))
    ∧ (MaxSumConstraint.call 5 (some [2, 3]) [vx, vy] [] [(vx, 1)] false =
      some ([], .ok true))
    ∧ ((ExactSumConstraint.call 5 (some [2, 3]) [vx, vy] [] [(vx, 1)] false).map
        (fun p => p.2) =
      (MaxSumConstraint.call 5 (some [2, 3]) [vx, vy] [] [(vx, 1)] false).map
        (fun p => p.2)) := by
  have h := claim_C6_exactsum_vs_maxsum 5 (some [2, 3]) [vx, vy] [] [(vx, 1)]
    (by intro ms hms; cases hms; rfl)
  refine ⟨?_, ?_, h.2.2 (by decide)⟩
  · rw [h.1]; rfl
  · rw [h.2.1]; rfl

/-! ## Claim C10: no domain mutation without forward checking -/

/-- **C10** (confirmed). Every built-in constraint's `call`, invoked with
`forward_check = false`, returns the domain map exactly as it received it
(and `FunctionConstraint` also returns the assignment map untouched, since
the shared helper is only reachable under `forward_check = true`): domain
mutation happens only on the forward-checking path. -/
theorem claim_C10_frame_without_forward_check
    (vars : List Variable) (domains : Domains) (assignments : Assignments)
    (set : List Int) (n bound : Int) (exactFlag assigned : Bool)
    (multipliers : Option (List Int))
    (f : List Int → Except ConstraintError Bool) :
    (∃ r, AllDifferentConstraint.call vars domains assignments false =
      some (domains, r))
    ∧ (∃ r, AllEqualConstraint.call vars domains assignments false =
      some (domains, r))
    ∧ (∃ r, MaxSumConstraint.call bound multipliers vars domains assignments false =
      some (domains, r))
    ∧ (∃ r, ExactSumConstraint.call bound multipliers vars domains assignments false =
      some (domains, r))
    ∧ (∃ r, MinSumConstraint.call bound multipliers vars domains assignments false =
      some (domains, r))
    ∧ (∃ r, SomeInSetConstraint.call set n exactFlag vars domains assignments false =
      some (domains, r))
    ∧ (∃ r, SomeNotInSetConstraint.call set n exactFlag vars domains assignments false =
      some (domains, r))
    ∧ (∃ r, InSetConstraint.call set vars domains assignments false =
      some (domains, r))
    ∧ (∃ r, NotInSetConstraint.call set vars domains assignments false =
      some (domains, r))
    ∧ (∃ r, FunctionConstraint.call f assigned vars domains assignments false =
      some (domains, assignments, r)) := by
  refine ⟨?_, ?_, ?_, ?_, ?_, ?_, ?_, ⟨_, rfl⟩, ⟨_, rfl⟩, ?_⟩
  · simp only [AllDifferentConstraint.call]
    cases allDifferentSeen assignments vars [] with
    | none => exact ⟨_, rfl⟩
    | some seen => exact ⟨_, rfl⟩
  · simp only [AllEqualConstraint.call]
    cases allEqualLoop assignments vars intMin with
    | none => exact ⟨_, rfl⟩
    | some sv => exact ⟨_, rfl⟩
  · cases multipliers with
    | some ms =>
      simp only [MaxSumConstraint.call]
      by_cases hc : weightedSum assignments (vars.zip ms) > bound
      · rw [if_pos hc]; exact ⟨_, rfl⟩
      · rw [if_neg hc]; exact ⟨_, rfl⟩
    | none =>
      simp only [MaxSumConstraint.call]
      by_cases hc : plainSum assignments vars > bound
      · rw [if_pos hc]; exact ⟨_, rfl⟩
      · rw [if_neg hc]; exact ⟨_, rfl⟩
  · cases multipliers with
    | some ms =>
      simp only [ExactSumConstraint.call]
      by_cases hc : weightedSum assignments (vars.zip ms) > bound
      · rw [if_pos hc]; exact ⟨_, rfl⟩
      · rw [if_neg hc]; exact ⟨_, rfl⟩
    | none =>
      simp only [ExactSumConstraint.call]
      by_cases hc : plainSum assignments vars > bound
      · rw [if_pos hc]; exact ⟨_, rfl⟩
      · rw [if_neg hc]; exact ⟨_, rfl⟩
  · simp only [MinSumConstraint.call]
    by_cases hc : (!allAssignedLoop assignments vars) = true
    · rw [if_pos hc]; exact ⟨_, rfl⟩
    · rw [if_neg hc]
      cases multipliers with
      | some ms => exact ⟨_, rfl⟩
      | none => exact ⟨_, rfl⟩
  · simp only [SomeInSetConstraint.call]
    by_cases hm0 : (someInSetCounts set assignments vars).1 ≠ 0
    · rw [if_pos hm0]
      split <;> split <;> exact ⟨_, rfl⟩
    · rw [if_neg hm0]
      cases exactFlag with
      | true => exact ⟨_, rfl⟩
      | false => exact ⟨_, rfl⟩
  · simp only [SomeNotInSetConstraint.call]
    by_cases hm0 : (someNotInSetCounts set assignments vars).1 ≠ 0
    · rw [if_pos hm0]
      split <;> split <;> exact ⟨_, rfl⟩
    · rw [if_neg hm0]
      cases exactFlag with
      | true => exact ⟨_, rfl⟩
      | false => exact ⟨_, rfl⟩
  · simp only [FunctionConstraint.call]
    by_cases hmz : (functionParms assignments vars).2 ≠ 0
    · rw [if_pos hmz]
      cases hb : (if assigned then Except.ok true
          else f (functionParms assignments vars).1) with
      | error e => exact ⟨_, rfl⟩
      | ok b =>
        cases b with
        | false => exact ⟨_, rfl⟩
        | true => exact ⟨_, rfl⟩
    · rw [if_neg hmz]; exact ⟨_, rfl⟩

/-! ## Claim C7: AllEqual -/

/-- `hide_value` on a live value succeeds. -/
theorem hide_value_of_mem (d : Domain) (x : Int) (hx : x ∈ d.values) :
    d.hide_value x =
      some { d with values := d.values.erase x, hidden := d.hidden ++ [x] } := by
  unfold Domain.hide_value
  rw [if_pos (List.elem_eq_true_of_mem hx)]

/-- Hiding, in order, the values of `l` selected by `p` — behind a prefix of
unselected values — succeeds and moves exactly the selected values from live
to hidden (in selection order). -/
theorem hideValues_filter (p : Int → Bool) :
    ∀ (l pre hid : List Int) (st : List Nat), (∀ y ∈ pre, p y = false) →
      hideValues { values := pre ++ l, hidden := hid, states := st } (l.filter p) =
        some { values := pre ++ l.filter (fun x => !p x),
               hidden := hid ++ l.filter p, states := st } := by
  intro l
  induction l with
  | nil =>
    intro pre hid st hpre
    simp [hideValues]
  | cons x xs ih =>
    intro pre hid st hpre
    cases hx : p x with
    | true =>
      have hxpre : x ∉ pre := fun hmem => by
        have h2 := hpre x hmem
        rw [hx] at h2
        exact Bool.noConfusion h2
      rw [List.filter_cons_of_pos hx]
      have herase : (pre ++ x :: xs).erase x = pre ++ xs := by
        rw [List.erase_append_right _ hxpre, List.erase_cons_head]
      simp only [hideValues,
        hide_value_of_mem { values := pre ++ x :: xs, hidden := hid, states := st } x
          (by simp), herase]
      rw [ih pre (hid ++ [x]) st hpre]
      have hf1 : List.filter (fun y => !p y) (x :: xs) = List.filter (fun y => !p y) xs :=
        List.filter_cons_of_neg (by simp [hx])
      rw [hf1, List.append_assoc, List.singleton_append]
    | false =>
      rw [List.filter_cons_of_neg (by simp [hx])]
      have hpre2 : ∀ y ∈ pre ++ [x], p y = false := by
        intro y hy
        rcases List.mem_append.mp hy with h1 | h1
        · exact hpre y h1
        · rw [List.mem_singleton.mp h1]; exact hx
      have h2 := ih (pre ++ [x]) hid st hpre2
      simp only [List.append_assoc, List.singleton_append] at h2
      rw [h2]
      have hf1 : List.filter (fun y => !p y) (x :: xs) = x :: List.filter (fun y => !p y) xs :=
        List.filter_cons_of_pos (by simp [hx])
      rw [hf1]

/-- Whole-domain corollary: hiding every `p`-selected live value keeps the
unselected ones live and appends the selected ones to `hidden`. -/
theorem hideValues_filter_all (p : Int → Bool) (d : Domain) :
    hideValues d (d.values.filter p) =
      some { values := d.values.filter (fun x => !p x),
             hidden := d.hidden ++ d.values.filter p, states := d.states } := by
  obtain ⟨vals, hid, st⟩ := d
  simpa using hideValues_filter p vals [] hid st (by intro y hy; cases hy)

/-- The AllEqual satisfaction loop started at a non-sentinel candidate `s`
accepts exactly when every assigned value equals `s`. -/
theorem allEqualLoop_of_ne_min (asgn : Assignments) :
    ∀ (vs : List Variable) (s : Int), s ≠ intMin →
      allEqualLoop asgn vs s =
        if (assignedVals asgn vs).all (fun y => y == s) then some s else none := by
  intro vs
  induction vs with
  | nil => intro s _; simp [allEqualLoop, assignedVals]
  | cons v rest ih =>
    intro s hs
    cases hlv : lookupA asgn v with
    | none =>
      have hAv : assignedVals asgn (v :: rest) = assignedVals asgn rest := by
        simp [assignedVals, hlv]
      rw [hAv]
      simp only [allEqualLoop, hlv]
      exact ih s hs
    | some value =>
      have hAv : assignedVals asgn (v :: rest) = value :: assignedVals asgn rest := by
        simp [assignedVals, hlv]
      rw [hAv]
      simp only [allEqualLoop, hlv]
      rw [if_neg hs]
      by_cases hvs : value = s
      · rw [if_neg (fun hne => hne hvs)]
        rw [ih s hs]
        have hb : (value == s) = true := by simp [hvs]
        simp [List.all_cons, hb]
      · rw [if_pos hvs]
        have hb : (value == s) = false := by simp [hvs]
        simp [List.all_cons, hb]

/-- The AllEqual satisfaction loop started at the sentinel, provided no
assigned value is the sentinel: it accepts exactly when all assigned values
equal the first one, and reports that first value. -/
theorem allEqualLoop_min (asgn : Assignments) :
    ∀ (vs : List Variable), (∀ x ∈ assignedVals asgn vs, x ≠ intMin) →
      allEqualLoop asgn vs intMin =
        (match assignedVals asgn vs with
        | [] => some intMin
        | x :: rest => if rest.all (fun y => y == x) then some x else none) := by
  intro vs
  induction vs with
  | nil => intro _; simp [allEqualLoop, assignedVals]
  | cons v vrest ih =>
    intro hall
    cases hlv : lookupA asgn v with
    | none =>
      have hAv : assignedVals asgn (v :: vrest) = assignedVals asgn vrest := by
        simp [assignedVals, hlv]
      rw [hAv]
      simp only [allEqualLoop, hlv]
      exact ih (fun x hx => hall x (by rw [hAv]; exact hx))
    | some x =>
      have hAv : assignedVals asgn (v :: vrest) = x :: assignedVals asgn vrest := by
        simp [assignedVals, hlv]
      have hx : x ≠ intMin := hall x (by rw [hAv]; exact List.mem_cons_self _ _)
      rw [hAv]
      simp only [allEqualLoop, hlv]
      rw [if_pos trivial]
      exact allEqualLoop_of_ne_min asgn vrest x hx

/-- Pruning to a single value is idempotent. -/
theorem pruneToSingle_idem (s : Int) (d : Domain) :
    pruneToSingle s (pruneToSingle s d) = pruneToSingle s d := by
  unfold pruneToSingle
  have hvals : ((d.values.filter (fun x => x == s)).filter (fun x => x == s)) =
      d.values.filter (fun x => x == s) := by
    rw [List.filter_filter]
    simp only [Bool.and_self]
  have hnone : ((d.values.filter (fun x => x == s)).filter (fun x => x != s)) = [] := by
    rw [List.filter_filter]
    have hff : (fun a : Int => (a != s) && (a == s)) = (fun _ : Int => false) := by
      funext a
      cases h : a == s <;> simp [bne, h]
    rw [hff]
    exact List.filter_false _
  simp [hvals, hnone]

/-- The lambda the AllEqual hide-loop filters with, complemented. -/
theorem bne_complement (s : Int) :
    (fun x : Int => !(x != s)) = (fun x : Int => x == s) := by
  funext x
  simp [bne]

/-- When the fixed value `s` is live in every unassigned listed variable's
domain, AllEqual's pruning loop succeeds and its effect, pointwise on
lookups, is exactly `pruneToSingle s` on the unassigned listed variables and
the identity elsewhere. -/
theorem allEqualPrune_success (s : Int) (asgn : Assignments) :
    ∀ (vs : List Variable) (doms : Domains),
      (∀ v ∈ vs, containsA asgn v = false →
        ∀ d, lookupD doms v = some d → s ∈ d.values) →
      ∃ doms', allEqualPrune s asgn vs doms = some (doms', true) ∧
        ∀ w, lookupD doms' w =
          if containsA asgn w = false ∧ w ∈ vs
          then (lookupD doms w).map (pruneToSingle s)
          else lookupD doms w := by
  intro vs
  induction vs with
  | nil =>
    intro doms _
    refine ⟨doms, rfl, fun w => ?_⟩
    rw [if_neg (fun hc => List.not_mem_nil w hc.2)]
  | cons v rest ih =>
    intro doms hall
    by_cases hv : containsA asgn v = true
    · obtain ⟨doms', hp, hchar⟩ :=
        ih doms (fun u hu hcu d hd => hall u (List.mem_cons_of_mem v hu) hcu d hd)
      refine ⟨doms', ?_, ?_⟩
      · rw [allEqualPrune, if_pos hv]
        exact hp
      · intro w
        by_cases hw : containsA asgn w = false ∧ w ∈ v :: rest
        · rw [if_pos hw]
          have hwrest : w ∈ rest := by
            rcases List.mem_cons.mp hw.2 with rfl | h2
            · rw [hw.1] at hv; exact Bool.noConfusion hv
            · exact h2
          have hc := hchar w
          rw [if_pos ⟨hw.1, hwrest⟩] at hc
          exact hc
        · rw [if_neg hw]
          have hc := hchar w
          rw [if_neg (fun hc2 => hw ⟨hc2.1, List.mem_cons_of_mem v hc2.2⟩)] at hc
          exact hc
    · have hvf : containsA asgn v = false := by
        cases hcv : containsA asgn v
        · rfl
        · exact absurd hcv hv
      cases hld : lookupD doms v with
      | none =>
        obtain ⟨doms', hp, hchar⟩ :=
          ih doms (fun u hu hcu d hd => hall u (List.mem_cons_of_mem v hu) hcu d hd)
        refine ⟨doms', ?_, ?_⟩
        · rw [allEqualPrune, if_neg hv]
          simp only [hld]
          exact hp
        · intro w
          by_cases hw : containsA asgn w = false ∧ w ∈ v :: rest
          · rw [if_pos hw]
            by_cases hwv : w = v
            · subst hwv
              rw [hld]
              by_cases hwrest : w ∈ rest
              · have hc := hchar w
                rw [if_pos ⟨hw.1, hwrest⟩, hld] at hc
                exact hc
              · have hc := hchar w
                rw [if_neg (fun hc2 => hwrest hc2.2)] at hc
                rw [hc, hld]
                rfl
            · have hwrest : w ∈ rest := by
                rcases List.mem_cons.mp hw.2 with h2 | h2
                · exact absurd h2 hwv
                · exact h2
              have hc := hchar w
              rw [if_pos ⟨hw.1, hwrest⟩] at hc
              exact hc
          · rw [if_neg hw]
            have hc := hchar w
            rw [if_neg (fun hc2 => hw ⟨hc2.1, List.mem_cons_of_mem v hc2.2⟩)] at hc
            exact hc
      | some d =>
        have hsd : s ∈ d.values := hall v (List.mem_cons_self v rest) hvf d hld
        have hcont : d.values.contains s = true := List.elem_eq_true_of_mem hsd
        have hhide := hideValues_filter_all (fun value => value != s) d
        rw [bne_complement s] at hhide
        have hall2 : ∀ u ∈ rest, containsA asgn u = false →
            ∀ du, lookupD (updateD doms v (pruneToSingle s d)) u = some du →
            s ∈ du.values := by
          intro u hu hcu du hdu
          by_cases huv : u = v
          · subst huv
            rw [lookupD_updateD_self doms u d (pruneToSingle s d) hld] at hdu
            cases hdu
            exact List.mem_filter.mpr ⟨hsd, by simp⟩
          · rw [lookupD_updateD_ne doms v u (pruneToSingle s d) huv] at hdu
            exact hall u (List.mem_cons_of_mem v hu) hcu du hdu
        obtain ⟨doms', hp, hchar⟩ := ih (updateD doms v (pruneToSingle s d)) hall2
        refine ⟨doms', ?_, ?_⟩
        · rw [allEqualPrune, if_neg hv]
          simp only [hld]
          rw [if_neg (by rw [hcont]; exact fun hb => Bool.noConfusion hb)]
          simp only [hhide]
          exact hp
        · intro w
          by_cases hw : containsA asgn w = false ∧ w ∈ v :: rest
          · rw [if_pos hw]
            by_cases hwv : w = v
            · subst hwv
              rw [hld]
              by_cases hwrest : w ∈ rest
              · have hc := hchar w
                rw [if_pos ⟨hw.1, hwrest⟩] at hc
                rw [lookupD_updateD_self doms w d (pruneToSingle s d) hld] at hc
                rw [hc]
                simp [pruneToSingle_idem]
              · have hc := hchar w
                rw [if_neg (fun hc2 => hwrest hc2.2)] at hc
                rw [lookupD_updateD_self doms w d (pruneToSingle s d) hld] at hc
                rw [hc]
                rfl
            · have hwrest : w ∈ rest := by
                rcases List.mem_cons.mp hw.2 with h2 | h2
                · exact absurd h2 hwv
                · exact h2
              have hc := hchar w
              rw [if_pos ⟨hw.1, hwrest⟩] at hc
              rw [lookupD_updateD_ne doms v w (pruneToSingle s d) hwv] at hc
              exact hc
          · rw [if_neg hw]
            have hwv : w ≠ v := fun heq => hw ⟨heq ▸ hvf, heq ▸ List.mem_cons_self v rest⟩
            have hc := hchar w
            rw [if_neg (fun hc2 => hw ⟨hc2.1, List.mem_cons_of_mem v hc2.2⟩)] at hc
            rw [lookupD_updateD_ne doms v w (pruneToSingle s d) hwv] at hc
            exact hc

/-- When some unassigned listed variable's domain exists and does not hold
the fixed value `s`, AllEqual's pruning loop reports failure (`Ok(false)`). -/
theorem allEqualPrune_fails (s : Int) (asgn : Assignments) :
    ∀ (vs : List Variable) (doms : Domains) (u : Variable) (du : Domain),
      u ∈ vs → containsA asgn u = false → lookupD doms u = some du →
      s ∉ du.values →
      ∃ doms', allEqualPrune s asgn vs doms = some (doms', false) := by
  intro vs
  induction vs with
  | nil => intro doms u du hu; exact absurd hu (List.not_mem_nil u)
  | cons v rest ih =>
    intro doms u du hu hcu hdu hsdu
    by_cases hv : containsA asgn v = true
    · have hurest : u ∈ rest := by
        rcases List.mem_cons.mp hu with rfl | h
        · rw [hcu] at hv; exact Bool.noConfusion hv
        · exact h
      obtain ⟨doms', hp⟩ := ih doms u du hurest hcu hdu hsdu
      exact ⟨doms', by rw [allEqualPrune, if_pos hv]; exact hp⟩
    · cases hld : lookupD doms v with
      | none =>
        have hurest : u ∈ rest := by
          rcases List.mem_cons.mp hu with rfl | h
          · rw [hdu] at hld; exact Option.noConfusion hld
          · exact h
        obtain ⟨doms', hp⟩ := ih doms u du hurest hcu hdu hsdu
        refine ⟨doms', ?_⟩
        rw [allEqualPrune, if_neg hv]
        simp only [hld]
        exact hp
      | some d =>
        by_cases hcont : d.values.contains s = true
        · have huv : u ≠ v := by
            intro heq
            subst heq
            rw [hdu] at hld
            cases hld
            exact hsdu (List.mem_of_elem_eq_true hcont)
          have hurest : u ∈ rest := by
            rcases List.mem_cons.mp hu with h | h
            · exact absurd h huv
            · exact h
          have hhide := hideValues_filter_all (fun value => value != s) d
          rw [bne_complement s] at hhide
          have hdu2 : lookupD (updateD doms v (pruneToSingle s d)) u = some du := by
            rw [lookupD_updateD_ne doms v u (pruneToSingle s d) huv]
            exact hdu
          obtain ⟨doms', hp⟩ :=
            ih (updateD doms v (pruneToSingle s d)) u du hurest hcu hdu2 hsdu
          refine ⟨doms', ?_⟩
          rw [allEqualPrune, if_neg hv]
          simp only [hld]
          rw [if_neg (by rw [hcont]; exact fun hb => Bool.noConfusion hb)]
          simp only [hhide]
          exact hp
        · have hcf : d.values.contains s = false := by
            cases hc2 : d.values.contains s
            · rfl
            · exact absurd hc2 hcont
          refine ⟨doms, ?_⟩
          rw [allEqualPrune, if_neg hv]
          simp only [hld]
          rw [if_pos (by rw [hcf]; rfl)]

/-- **C7** (amended). The claimed behaviour of `AllEqualConstraint::call`
holds **provided no assigned value equals `i32::MIN`** — the value the code
reserves internally as its "no value seen yet" marker (see the
counterexample for the unrestricted claim).  Under that proviso:
(a) with `forward_check = false` the verdict is `Ok(false)` exactly when some
assigned variable's value differs from the first assigned value seen (domains
untouched); (b) with `forward_check = true`, once a value `s` is fixed and
the assigned values agree, (b1) if `s` is live in every unassigned listed
variable's domain the call answers `Ok(true)` after hiding every other value
of each such domain (pointwise `pruneToSingle`, all other entries
unchanged), and (b2) if some unassigned listed variable's domain lacks `s`
the call answers `Ok(false)`. -/
theorem claim_C7_allequal_with_min_proviso (vars : List Variable)
    (domains : Domains) (assignments : Assignments)
    (hMin : ∀ x ∈ assignedVals assignments vars, x ≠ intMin) :
    (AllEqualConstraint.call vars domains assignments false =
      some (domains, .ok (allEqualSpecRule assignments vars)))
    ∧ (∀ s rest, assignedVals assignments vars = s :: rest →
        rest.all (fun y => y == s) = true →
        ((∀ v ∈ vars, containsA assignments v = false →
            ∀ d, lookupD domains v = some d → s ∈ d.values) →
          ∃ doms', AllEqualConstraint.call vars domains assignments true =
              some (doms', .ok true) ∧
            ∀ w, lookupD doms' w =
              if containsA assignments w = false ∧ w ∈ vars
              then (lookupD domains w).map (pruneToSingle s)
              else lookupD domains w)
        ∧ (∀ u du, u ∈ vars → containsA assignments u = false →
            lookupD domains u = some du → s ∉ du.values →
          ∃ doms', AllEqualConstraint.call vars domains assignments true =
              some (doms', .ok false))) := by
  constructor
  · rw [AllEqualConstraint.call, allEqualLoop_min assignments vars hMin]
    cases hA : assignedVals assignments vars with
    | nil =>
      simp [allEqualSpecRule, hA]
    | cons x xs =>
      cases hall2 : xs.all (fun y => y == x) with
      | true =>
        simp [allEqualSpecRule, hA, hall2]
      | false =>
        simp [allEqualSpecRule, hA, hall2]
  · intro s rest hA hrest
    have hs : s ≠ intMin := hMin s (by rw [hA]; exact List.mem_cons_self _ _)
    have hloop : allEqualLoop assignments vars intMin = some s := by
      rw [allEqualLoop_min assignments vars hMin, hA]
      simp [hrest]
    have hbeq : (s == intMin) = false := by simp [hs]
    constructor
    · intro hall
      obtain ⟨doms', hp, hchar⟩ := allEqualPrune_success s assignments vars domains hall
      refine ⟨doms', ?_, hchar⟩
      rw [AllEqualConstraint.call]
      simp only [hloop]
      rw [if_pos (by rw [hbeq]; rfl)]
      simp only [hp]
    · intro u du hu hcu hdu hsdu
      obtain ⟨doms', hp⟩ :=
        allEqualPrune_fails s assignments vars domains u du hu hcu hdu hsdu
      refine ⟨doms', ?_⟩
      rw [AllEqualConstraint.call]
      simp only [hloop]
      rw [if_pos (by rw [hbeq]; rfl)]
      simp only [hp]

/-- Witness for C7: variables `[x, y]`, `x ↦ 5` assigned, `y` unassigned with
domain `{4, 5}`.  The fixed value 5 is live in `y`'s domain, so the
forward-checking call succeeds and prunes `y`'s domain to exactly `{5}`
(with 4 moved to hidden), leaving every other map entry unchanged. -/
theorem claim_C7_witness :
    ∃ doms', AllEqualConstraint.call [vx, vy] [(vy, Domain.new [4, 5])]
        [(vx, 5)] true = some (doms', .ok true) ∧
      ∀ w, lookupD doms' w =
        if containsA [(vx, 5)] w = false ∧ w ∈ [vx, vy]
        then (lookupD [(vy, Domain.new [4, 5])] w).map (pruneToSingle 5)
        else lookupD [(vy, Domain.new [4, 5])] w := by
  refine (((claim_C7_allequal_with_min_proviso [vx, vy] [(vy, Domain.new [4, 5])]
      [(vx, 5)] (by decide)).2 5 [] (by decide) (by decide)).1 ?_)
  intro v hv hcv d hd
  have hvv : v = vx ∨ v = vy := by
    rcases List.mem_cons.mp hv with h | h
    · exact Or.inl h
    · exact Or.inr (List.mem_singleton.mp h)
  rcases hvv with rfl | rfl
  · exact absurd hcv (by decide)
  · have hdd : d = Domain.new [4, 5] := by
      have hd2 : lookupD [(vy, Domain.new [4, 5])] vy = some (Domain.new [4, 5]) := by
        decide
      rw [hd2] at hd
      cases hd
      rfl
    rw [hdd]
    decide

end RustConstraint
